import Mathlib

/-!
Verification of the concurrent task-execution components of the CppLibs
repository: the `PoolTypeStructure::ThreadPool`
(src/PoolTypeStructure/ThreadPool/thread_pool.h, thread_pool.cpp), the
priority `TaskPool` (src/Books/CPPCurrencyProgramming2th/xxx/ch4/task_pool.hpp),
the simple `ThreadPool` of src/PoolStructure/ThreadPool/practice/thrdPool.cpp,
and the `LockFreeQueue` of src/CPPCurrencyProgramming2th/xxx/ch5/design_2.cpp.

The embedding is sequential: each C++ member function becomes a pure Lean
function on an explicit state record.  Condition-variable waits are modelled
by their wait predicates (a fetch that would block is an explicit `blocked`
outcome), thrown C++ exceptions become `Except` / explicit error values, and
`std::future` resolution is an explicit value of type `FutureState`.
Machine integers that matter here (`int priority`) are modelled as `Int`;
`size_t` counters stay in `Nat` (no operation below subtracts past zero on
the paths the theorems speak about).
-/

namespace PoolTypeStructure

/-- Outcome of running a submitted task body once: a normal return value or a
thrown C++ exception carrying its message. -/
inductive Outcome where
  | value (v : Int)
  | thrown (msg : String)
deriving DecidableEq

/-- A submitted task.  `id` is a ghost label naming the submission (the C++
code stores only the type-erased callable; the label lets the theorems speak
about which task is which), `body` is the result of running the task body. -/
structure Task where
  id : Nat
  body : Outcome
deriving DecidableEq

/-- State of `PoolTypeStructure::ThreadPool` (thread_pool.h lines 95-107):
the FIFO `std::queue<std::function<void()>>` inside `m_taskQueue`, and the
atomic `m_isShutdown` flag.  The queue's front is the list head. -/
structure PoolState where
  queue : List Task
  isShutdown : Bool
deriving DecidableEq

/-- `ThreadPool::SubmitTask` (thread_pool.h lines 111-136).  If the shutdown
flag is set it throws `std::runtime_error("Submit task on stopped thread
pool")`; otherwise it wraps the callable in a `std::packaged_task` and
appends the wrapper to the back of the queue.  The returned future is the
one attached to the submitted task (identified by its ghost `id`), so the
success value is just the updated pool state. -/
def SubmitTask (s : PoolState) (t : Task) : Except String PoolState :=
  if s.isShutdown then .error "Submit task on stopped thread pool"
  else .ok { s with queue := s.queue ++ [t] }

/-- Result of one call to `ThreadPool::FetchTask`: still blocked in
`condition.wait` (its predicate is false), the terminal `nullptr` return, or
a fetched task together with the remaining pool state. -/
inductive FetchResult where
  | blocked
  | closedSignal
  | task (t : Task) (rest : PoolState)
deriving DecidableEq

/-- The `condition.wait` predicate of `ThreadPool::FetchTask`
(thread_pool.cpp lines 82-84): `!queue.empty() || m_isShutdown`. -/
def fetchWaitPredicate (s : PoolState) : Bool :=
  !s.queue.isEmpty || s.isShutdown

/-- `ThreadPool::FetchTask` (thread_pool.cpp lines 78-95): wait until the
queue is non-empty or the pool is shut down; if shut down with an empty
queue return `nullptr` (the closed signal); otherwise pop the front task. -/
def FetchTask (s : PoolState) : FetchResult :=
  if fetchWaitPredicate s then
    if s.isShutdown && s.queue.isEmpty then .closedSignal
    else
      match s.queue with
      | [] => .closedSignal
      | t :: rest => .task t { s with queue := rest }
  else .blocked

/-- Resolution state of a task's result channel (the `std::future` returned
by `SubmitTask`). -/
inductive FutureState where
  | resolvedValue (v : Int)
  | resolvedError (msg : String)
deriving DecidableEq

/-- Invoking the wrapper `[taskWrapper](){ (*taskWrapper)(); }` queued by
`SubmitTask` (thread_pool.h line 130): `std::packaged_task::operator()` runs
the body and stores a thrown exception into the shared state of that task's
own future, so the wrapper itself returns normally either way, and the
future resolves to exactly the body's outcome. -/
def runWrapper (t : Task) : FutureState :=
  match t.body with
  | .value v => .resolvedValue v
  | .thrown m => .resolvedError m

/-- One worker loop, `ThreadPool::WorkerThreadProc` (thread_pool.cpp lines
53-76), run as far as it can go: it fetches tasks and executes each inside
`try { task(); } catch (...)`, so any escaping exception is swallowed and
the loop continues; it exits only on the terminal `nullptr` fetch.  Returns
the `(task id, resolved future)` pairs in execution order together with the
final pool state.  A fetch that would block ends the model run with the
worker still waiting (that only happens on an empty, open queue). -/
def WorkerThreadProc (s : PoolState) : List (Nat × FutureState) × PoolState :=
  match h : FetchTask s with
  | .blocked => ([], s)
  | .closedSignal => ([], s)
  | .task t rest =>
      let r := WorkerThreadProc rest
      ((t.id, runWrapper t) :: r.1, r.2)
termination_by s.queue.length
decreasing_by
  have hq : s.queue = t :: rest.queue := by
    unfold FetchTask at h
    rcases s with ⟨q, sd⟩
    cases q with
    | nil => simp [fetchWaitPredicate] at h <;> cases sd <;> simp_all
    | cons a l =>
        cases sd <;> simp [fetchWaitPredicate] at h <;>
          simp [← h.1, ← h.2]
  simp [hq]

/-- `ThreadPool::Shutdown` (thread_pool.cpp lines 38-51): the first call
flips `m_isShutdown` from false to true, wakes all workers and joins them.
Joining is modelled by running `WorkerThreadProc` on the resulting state. -/
def Shutdown (s : PoolState) : PoolState :=
  { s with isShutdown := true }

/-- Submit a whole list of tasks in order (repeated `SubmitTask`). -/
def submitAll (s : PoolState) : List Task → Except String PoolState
  | [] => .ok s
  | t :: ts =>
      match SubmitTask s t with
      | .error e => .error e
      | .ok s2 => submitAll s2 ts

/-- Error raised by `ThreadPool::ThreadPool` (thread_pool.cpp lines 18-34):
the explicit `std::invalid_argument` for a zero thread count, or a rethrown
exception from `std::thread` creation. -/
inductive CtorError where
  | invalidArgument (msg : String)
  | spawnFailure
deriving DecidableEq

/-- Worker threads owned by a pool under construction: how many `std::thread`
objects were spawned and how many of them have been joined. -/
structure CtorOutcome where
  spawned : Nat
  joined : Nat
  isShutdown : Bool
deriving DecidableEq

/-- The constructor's spawn loop (thread_pool.cpp lines 26-29): spawn the
remaining workers one at a time; `fails i = true` means creating the i-th
`std::thread` throws, in which case the loop aborts with the number spawned
so far. -/
def SpawnWorkers (fails : Nat → Bool) : Nat → Nat → Except Nat Nat
  | spawned, 0 => .ok spawned
  | spawned, remaining + 1 =>
      if fails spawned then .error spawned
      else SpawnWorkers fails (spawned + 1) remaining

/-- `ThreadPool::Shutdown` as it acts during construction failure
(thread_pool.cpp lines 38-51): the compare-exchange on `m_isShutdown`
succeeds on the first call, every spawned (joinable) worker is joined. -/
def ShutdownJoin (s : CtorOutcome) : CtorOutcome :=
  if s.isShutdown then s
  else { s with joined := s.spawned, isShutdown := true }

/-- `ThreadPool::ThreadPool` (thread_pool.cpp lines 18-34): throw
`std::invalid_argument("Thread number cannot be zero")` if `threadNum == 0`;
otherwise spawn `threadNum` workers, and on a spawn failure run `Shutdown()`
in the catch block before rethrowing.  An error result carries the worker
state at the moment the exception leaves the constructor. -/
def ThreadPoolCtor (threadNum : Nat) (fails : Nat → Bool) :
    Except (CtorError × CtorOutcome) CtorOutcome :=
  if threadNum = 0 then
    .error (.invalidArgument "Thread number cannot be zero",
            { spawned := 0, joined := 0, isShutdown := false })
  else
    match SpawnWorkers fails 0 threadNum with
    | .ok spawned => .ok { spawned := spawned, joined := 0, isShutdown := false }
    | .error spawned =>
        .error (.spawnFailure,
                ShutdownJoin { spawned := spawned, joined := 0, isShutdown := false })

end PoolTypeStructure

namespace SimplePool

open PoolTypeStructure (Outcome Task)

/-- The worker lambda of the simple `ThreadPool`
(src/PoolStructure/ThreadPool/practice/thrdPool.cpp lines 21-36), draining a
stopped pool's queue: each task is popped from the front and invoked with no
try/catch and no result channel, so a thrown body escapes the worker lambda
(after which `std::thread` calls `std::terminate`).  Returns the ids of the
tasks that completed, the escaped exception message if one occurred, and the
tasks left unprocessed in the queue. -/
def workerRun : List Task → List Nat × Option String × List Task
  | [] => ([], none, [])
  | t :: rest =>
      match t.body with
      | .thrown m => ([], some m, rest)
      | .value _ =>
          let r := workerRun rest
          (t.id :: r.1, r.2.1, r.2.2)

end SimplePool

namespace TaskPool

/-- The `TaskPool::Task` of task_pool.hpp lines 71-78: an `int` priority and
a type-erased callable.  `seq` is a ghost label recording the submission
index (the C++ struct stores no such field; the label only lets theorems
talk about submission order). -/
structure QTask where
  priority : Int
  seq : Nat
deriving DecidableEq

instance : Inhabited QTask := ⟨⟨0, 0⟩⟩

/-- The comparison `Task::operator()` of task_pool.hpp lines 75-77:
`priority < other.priority`, the strict-weak-order "less" that makes
`std::priority_queue` a max-heap on `priority` (and compares nothing
else — in particular, not the submission order).  The header declares
`std::priority_queue<Task>`, whose default `std::less<Task>` would need an
`operator<` the struct never defines (no file of the repository instantiates
the queue, so this never surfaces); the member call operator is the
evidently intended comparison and is what this model uses. -/
def taskLess (a b : QTask) : Bool :=
  a.priority < b.priority

/-- Swap two positions of the heap's underlying array (the element exchange
performed by the standard `push_heap` / `pop_heap` sift steps). -/
def swapAt (l : List QTask) (i j : Nat) : List QTask :=
  match l.get? i, l.get? j with
  | some a, some b => (l.set i b).set j a
  | _, _ => l

/-- The sift-up of `std::push_heap` run by `std::priority_queue::push`:
while the element at `i` compares greater than its parent, exchange the two
and continue from the parent. -/
def siftUp (l : List QTask) (i : Nat) : List QTask :=
  if i = 0 then l
  else
    let p := (i - 1) / 2
    if taskLess (l.getD p default) (l.getD i default) then
      siftUp (swapAt l p i) p
    else l
termination_by i
decreasing_by omega

/-- `std::priority_queue::push` (used by `TaskPool::enqueue`, task_pool.hpp
line 64): append the new task to the back of the array and sift it up. -/
def heapPush (l : List QTask) (t : QTask) : List QTask :=
  siftUp (l ++ [t]) l.length

/-- Index of the child of `i` selected by the standard sift-down: the right
child exactly when it exists and the left child compares less than it
(`comp(left, right)`), otherwise the left child. -/
def maxChild (l : List QTask) (i : Nat) : Nat :=
  if 2 * i + 2 < l.length ∧
      taskLess (l.getD (2 * i + 1) default) (l.getD (2 * i + 2) default)
  then 2 * i + 2 else 2 * i + 1

/-- The sift-down run by `std::pop_heap` after the root has been replaced:
while the element at `i` compares less than its greater child, exchange the
two and continue from that child. -/
def siftDown (l : List QTask) (i : Nat) : List QTask :=
  if hlc : 2 * i + 1 < l.length then
    if taskLess (l.getD i default) (l.getD (maxChild l i) default) then
      siftDown (swapAt l i (maxChild l i)) (maxChild l i)
    else l
  else l
termination_by l.length - i
decreasing_by
  have hlen : (swapAt l i (maxChild l i)).length = l.length := by
    unfold swapAt
    split
    · simp
    · rfl
  have hm : i < maxChild l i ∧ maxChild l i < l.length := by
    unfold maxChild
    split
    · next hcond => exact ⟨by omega, hcond.1⟩
    · exact ⟨by omega, hlc⟩
  omega

/-- `std::priority_queue::pop` as run by the `TaskPool` worker
(task_pool.hpp lines 24-25, `top()` then `pop()`): the root (the returned
maximum) is replaced by the last element, the array shrinks by one, and the
new root is sifted down (`std::pop_heap` followed by `pop_back`).  Returns
`none` on an empty queue.  The C++ standard fixes the heap semantics of
`pop_heap` but leaves the relative order of elements the comparison cannot
distinguish unspecified; this model realizes the standard array-heap
algorithm (the one in libc++), and the ordering theorems below rely only on
the heap semantics, while the tie-break counterexample exhibits the order
this conforming implementation produces. -/
def heapPop (l : List QTask) : Option (QTask × List QTask) :=
  match l with
  | [] => none
  | [t] => some (t, [])
  | t :: _ :: _ =>
      some (t, siftDown ((l.set 0 (l.getD (l.length - 1) default)).take (l.length - 1)) 0)

/-- Pop `fuel` times, collecting the popped tasks in order. -/
def popAllFuel : Nat → List QTask → List QTask
  | 0, _ => []
  | fuel + 1, l =>
      match heapPop l with
      | none => []
      | some (t, rest) => t :: popAllFuel fuel rest

/-- Drain the priority queue completely: the order in which the `TaskPool`
workers would pop all currently queued tasks. -/
def popAll (l : List QTask) : List QTask :=
  popAllFuel l.length l

/-- Build the heap by pushing the given tasks in submission order. -/
def pushAll (ts : List QTask) : List QTask :=
  ts.foldl heapPush []

/-- Array access as the heap algorithms read it (the sift loops only ever
read in-range indices; the default keeps the function total). -/
def nth (l : List QTask) (i : Nat) : QTask := l.getD i default

/-- The binary max-heap property of the underlying array: no element
compares greater than its parent by `taskLess`. -/
def IsHeap (l : List QTask) : Prop :=
  ∀ c, 0 < c → c < l.length → taskLess (nth l ((c - 1) / 2)) (nth l c) = false

/-- Intermediate state of the sift-up loop: every parent-child edge is
ordered except possibly the one into `hole`, and the elements below `hole`
fit below `hole`'s parent. -/
structure SiftUpState (l : List QTask) (hole : Nat) : Prop where
  bounded : hole < l.length
  heap : ∀ c, 0 < c → c < l.length → c ≠ hole →
    taskLess (nth l ((c - 1) / 2)) (nth l c) = false
  lower : ∀ c, 0 < c → c < l.length → (c - 1) / 2 = hole →
    taskLess (nth l ((hole - 1) / 2)) (nth l c) = false

/-- Intermediate state of the sift-down loop from the root: every
parent-child edge is ordered except possibly those out of `hole`, and once
the hole has moved below the root, the elements below it fit below its
parent. -/
structure SiftDownState (l : List QTask) (hole : Nat) : Prop where
  bounded : hole < l.length
  heap : ∀ c, 0 < c → c < l.length → (c - 1) / 2 ≠ hole →
    taskLess (nth l ((c - 1) / 2)) (nth l c) = false
  upper : 0 < hole → ∀ c, 0 < c → c < l.length → (c - 1) / 2 = hole →
    taskLess (nth l ((hole - 1) / 2)) (nth l c) = false

/-- State of a `TaskPool` (task_pool.hpp lines 80-84): the `stop` flag and
the underlying array of the `std::priority_queue<Task> tasks`. -/
structure TPState where
  stop : Bool
  tasks : List QTask
deriving DecidableEq

/-- Failure carried by a resolved-to-failure `std::future`.  `taskThrew` is
an exception thrown by the task body and stored by the `packaged_task`;
`brokenPromiseError` is the `std::future_error` with code `broken_promise`
stored when a `packaged_task` is destroyed without ever being invoked;
`poolStoppedError` is the distinct "pool stopped" failure demanded by the
specification's error taxonomy — no path of task_pool.hpp produces it. -/
inductive FutureFail where
  | taskThrew (msg : String)
  | brokenPromiseError
  | poolStoppedError
deriving DecidableEq

/-- The `std::future` handed back by `TaskPool::enqueue`, as the caller will
eventually observe it: still pending resolution by a worker, or already
destined to fail. -/
inductive EnqueueFuture where
  | pendingTask
  | failed (e : FutureFail)
deriving DecidableEq

/-- `TaskPool::enqueue` (task_pool.hpp lines 50-69).  Under the lock: if
`stop` is set, print "pool stoped" to stderr and return the future as is —
the task is never queued, and since the only owner of the
`std::packaged_task` dies at scope exit without invoking it, that future
resolves to a `broken_promise` `std::future_error`.  Otherwise push the
wrapper at the given priority and notify one worker.  Result: the new pool
state, the returned future's destiny, and the message printed to stderr (if
any). -/
def enqueue (s : TPState) (priority : Int) (seq : Nat) :
    TPState × EnqueueFuture × Option String :=
  if s.stop then
    (s, .failed .brokenPromiseError, some "pool stoped")
  else
    ({ s with tasks := heapPush s.tasks ⟨priority, seq⟩ }, .pendingTask, none)

/-- The worker lambda's `cv.wait` predicate, task_pool.hpp line 18: the code
reads `stop || tasks.empty()` — the worker sleeps until the pool is stopped
or the queue is EMPTY (not, as in every sibling pool in the repository,
until it is non-empty). -/
def workerWaitPredicate (s : TPState) : Bool :=
  s.stop || s.tasks.isEmpty

/-- What one iteration of the `TaskPool` worker loop (task_pool.hpp lines
15-29) does from a given state. -/
inductive WorkerStep where
  | blockedInWait
  | exited
  | ranTask (t : QTask) (rest : TPState)
  | spunWithoutWork
deriving DecidableEq

/-- One iteration of the `TaskPool` worker loop (task_pool.hpp lines 15-29):
wait for `workerWaitPredicate`; on waking, exit if `stop && tasks.empty()`;
otherwise pop and run the top task if there is one, else loop around (an
immediate re-wait, since nothing changed the predicate). -/
def workerStep (s : TPState) : WorkerStep :=
  if workerWaitPredicate s then
    if s.stop && s.tasks.isEmpty then .exited
    else
      match heapPop s.tasks with
      | some (t, rest) => .ranTask t { s with tasks := rest }
      | none => .spunWithoutWork
  else .blockedInWait

/-- `TaskPool::TaskPool` (task_pool.hpp lines 13-32): no validation of
`threadNum` at all; the loop `for (int i = 0; i < threadNum; ++i)` spawns
`max threadNum 0` workers and the constructor always returns a pool (the
`Except` layer records that C++ constructors may throw; this one has no
throwing path of its own).  The success value is the pool state and the
number of workers spawned. -/
def TaskPoolCtor (threadNum : Int) : Except String (TPState × Nat) :=
  .ok ({ stop := false, tasks := [] }, threadNum.toNat)

end TaskPool

namespace LockFreeQueue

/-- A `LockFreeQueue::Node` (design_2.cpp lines 9-13): a payload and an
atomic next pointer.  Pointers are modelled as indices into an allocation
store; `none` is `nullptr`. -/
structure Node (α : Type) where
  data : α
  next : Option Nat
deriving DecidableEq

/-- A `LockFreeQueue<T>` (design_2.cpp lines 15-18): the allocation store
(every node ever allocated, addressed by index — `delete` does not reuse
addresses in this model), the atomic `head`, `tail` and `size`, and the
immutable `capacity`. -/
structure Queue (α : Type) where
  store : List (Node α)
  head : Option Nat
  tail : Option Nat
  size : Nat
  capacity : Nat
deriving DecidableEq

/-- `LockFreeQueue::LockFreeQueue` (design_2.cpp lines 25-30): allocate one
dummy node holding `T()` (here the supplied default value) and point both
`head` and `tail` at it, with `size = 0`. -/
def mkQueue (dflt : α) (cap : Nat) : Queue α :=
  { store := [⟨dflt, none⟩], head := some 0, tail := some 0,
    size := 0, capacity := cap }

/-- The node `head` currently points at, if `head` is a valid pointer. -/
def headNode (q : Queue α) : Option (Node α) :=
  q.head.bind fun h => q.store.get? h

/-- `LockFreeQueue::dequeue` (design_2.cpp lines 61-78), sequential
semantics (the re-read of `head` sees the same value and the CAS succeeds).
Read `head` and then `head->next`: if the successor is null, return `false`
leaving the output argument untouched; otherwise advance `head` to the
successor by CAS, decrement `size`, write the successor's payload to the
output argument, free the old head, and return `true`.  The result is
`(returned bool, new content of the output argument if written, new state)`;
the outer `none` marks a dereference of an invalid pointer (impossible under
the queue invariant). -/
def dequeue (q : Queue α) : Option (Bool × Option α × Queue α) :=
  match q.head with
  | none => none
  | some h =>
      match q.store.get? h with
      | none => none
      | some nd =>
          match nd.next with
          | none => some (false, none, q)
          | some nx =>
              match q.store.get? nx with
              | none => none
              | some nxnd =>
                  some (true, some nxnd.data,
                        { q with head := some nx, size := q.size - 1 })

/-- The CAS loop of `LockFreeQueue::enqueue` (design_2.cpp lines 44-58),
sequential semantics, starting from the node at index `t`: if that node's
next pointer is null, CAS-link the new node there, swing `tail` to it and
bump `size`; otherwise help-advance past the stale tail and retry.  Fuel
bounds the walk (a cyclic chain would make the C++ loop spin forever);
`none` marks an invalid dereference or exhausted fuel, impossible under the
queue invariant. -/
def enqueueFrom (q : Queue α) (newIdx : Nat) : Nat → Nat → Option (Queue α)
  | _, 0 => none
  | t, fuel + 1 =>
      match q.store.get? t with
      | none => none
      | some tn =>
          match tn.next with
          | none =>
              some { q with
                      store := q.store.set t { tn with next := some newIdx },
                      tail := some newIdx,
                      size := q.size + 1 }
          | some nx => enqueueFrom q newIdx nx fuel

/-- `LockFreeQueue::enqueue` (design_2.cpp lines 38-59), sequential
semantics: if `size >= capacity` return `false` without allocating;
otherwise allocate the new node and run the CAS loop from the current
`tail`. -/
def enqueue (q : Queue α) (value : α) : Option (Bool × Queue α) :=
  if q.capacity ≤ q.size then some (false, q)
  else
    match q.tail with
    | none => none
    | some t =>
        let q1 : Queue α := { q with store := q.store ++ [⟨value, none⟩] }
        (enqueueFrom q1 q.store.length t q1.store.length).map fun q2 => (true, q2)

/-- The chain of store indices reached from a pointer by following `next`
links down to `nullptr`. -/
inductive NodeChain (store : List (Node α)) : Option Nat → List Nat → Prop where
  | nil : NodeChain store none []
  | cons {i : Nat} {nd : Node α} {l : List Nat} :
      store.get? i = some nd → NodeChain store nd.next l →
      NodeChain store (some i) (i :: l)

/-- The Michael-Scott queue invariant claimed by the specification for
`LockFreeQueue` (spec §3, design_2.cpp): `head` points at a chain of at
least one node (the sentinel), the chain is duplicate-free, `tail` points at
its last node, and `size` counts the nodes after the sentinel. -/
def Inv (q : Queue α) : Prop :=
  ∃ l : List Nat,
    NodeChain q.store q.head l ∧ l ≠ [] ∧ l.Nodup ∧
    q.tail = l.getLast? ∧ q.size + 1 = l.length

end LockFreeQueue

/-! ## Supporting lemmas -/

namespace PoolTypeStructure

/-- After shutdown a worker drains the whole queue in order, resolving each
task's future with that task's own body outcome, and exits on the terminal
signal with the queue empty. -/
theorem worker_drain (q : List Task) :
    WorkerThreadProc ⟨q, true⟩ =
      (q.map fun t => (t.id, runWrapper t), ⟨[], true⟩) := by
  induction q with
  | nil =>
      unfold WorkerThreadProc
      simp [FetchTask, fetchWaitPredicate]
  | cons t ts ih =>
      unfold WorkerThreadProc
      simp [FetchTask, fetchWaitPredicate, ih]

/-- Submitting a list of tasks to an open pool appends them all, in order,
to the back of the queue. -/
theorem submitAll_open (q ts : List Task) :
    submitAll ⟨q, false⟩ ts = .ok ⟨q ++ ts, false⟩ := by
  induction ts generalizing q with
  | nil => simp [submitAll]
  | cons t ts ih => simp [submitAll, SubmitTask, ih]

/-- The spawn loop with no failures spawns every requested worker. -/
theorem spawnWorkers_ok (f : Nat → Bool) (hf : ∀ i, f i = false) :
    ∀ n spawned, SpawnWorkers f spawned n = .ok (spawned + n) := by
  intro n
  induction n with
  | zero => intro spawned; simp [SpawnWorkers]
  | succ m ih =>
      intro spawned
      simp only [SpawnWorkers, hf spawned, Bool.false_eq_true, if_false, ih]
      congr 1
      omega

end PoolTypeStructure

namespace TaskPool

/-- Comparison failure means the right priority is no larger. -/
theorem taskLess_eq_false_iff {a b : QTask} :
    taskLess a b = false ↔ b.priority ≤ a.priority := by
  simp [taskLess, not_lt]

/-- Comparison success means strictly larger right priority. -/
theorem taskLess_eq_true_iff {a b : QTask} :
    taskLess a b = true ↔ a.priority < b.priority := by
  simp [taskLess]

/-- Swapping preserves the array length. -/
theorem length_swapAt (l : List QTask) (i j : Nat) :
    (swapAt l i j).length = l.length := by
  unfold swapAt
  split
  · simp
  · rfl

/-- Reading an in-range position. -/
theorem nth_get? {l : List QTask} {i : Nat} (hi : i < l.length) :
    l.get? i = some (nth l i) := by
  have h := List.get?_eq_get hi
  rw [h, nth, List.getD_eq_get?, h]
  rfl

/-- Reading a set position. -/
theorem nth_set {l : List QTask} {i : Nat} (x : QTask) (k : Nat)
    (hi : i < l.length) :
    nth (l.set i x) k = if k = i then x else nth l k := by
  by_cases hk : k = i
  · subst hk
    rw [if_pos rfl, nth, List.getD_eq_get?, List.get?_set_eq_of_lt _ hi]
    rfl
  · rw [if_neg hk, nth, nth, List.getD_eq_get?, List.getD_eq_get?,
      List.get?_set_ne _ _ (Ne.symm hk)]

/-- Reading inside the left part of an append. -/
theorem nth_append_lt {l l2 : List QTask} {k : Nat} (hk : k < l.length) :
    nth (l ++ l2) k = nth l k := by
  rw [nth, nth, List.getD_eq_get?, List.getD_eq_get?, List.get?_append hk]

/-- Entries of a swapped array. -/
theorem nth_swapAt {l : List QTask} {i j : Nat} (hi : i < l.length)
    (hj : j < l.length) (k : Nat) :
    nth (swapAt l i j) k =
      if k = i then nth l j else if k = j then nth l i else nth l k := by
  have ha := nth_get? hi
  have hb := nth_get? hj
  simp only [swapAt, ha, hb]
  rw [nth_set (nth l i) k (by simpa using hj), nth_set (nth l j) k hi]
  by_cases hkj : k = j <;> by_cases hki : k = i <;> simp_all

/-- Members of a swapped array are members of the original. -/
theorem mem_swapAt {l : List QTask} {i j : Nat} {x : QTask}
    (hx : x ∈ swapAt l i j) : x ∈ l := by
  unfold swapAt at hx
  split at hx
  · next a b ha hb =>
      rcases List.mem_or_eq_of_mem_set hx with hx2 | rfl
      · rcases List.mem_or_eq_of_mem_set hx2 with hx3 | rfl
        · exact hx3
        · exact List.get?_mem hb
      · exact List.get?_mem ha
  · exact hx

/-- An in-range read is a member. -/
theorem nth_mem {l : List QTask} {k : Nat} (hk : k < l.length) :
    nth l k ∈ l :=
  List.get?_mem (nth_get? hk)

/-- One sift-up exchange moves the unordered edge one level up. -/
theorem siftUpState_swap {l : List QTask} {i : Nat} (st : SiftUpState l i)
    (hi0 : ¬ i = 0)
    (hlt : taskLess (nth l ((i - 1) / 2)) (nth l i) = true) :
    SiftUpState (swapAt l ((i - 1) / 2) i) ((i - 1) / 2) := by
  have hib : i < l.length := st.bounded
  have hpi : (i - 1) / 2 < i := by omega
  have hpb : (i - 1) / 2 < l.length := by omega
  have hsw := nth_swapAt hpb hib
  have hlen := length_swapAt l ((i - 1) / 2) i
  have hPI : (nth l ((i - 1) / 2)).priority < (nth l i).priority :=
    taskLess_eq_true_iff.mp hlt
  have hswp : nth (swapAt l ((i - 1) / 2) i) ((i - 1) / 2) = nth l i := by
    rw [hsw ((i - 1) / 2), if_pos rfl]
  have hswi : nth (swapAt l ((i - 1) / 2) i) i = nth l ((i - 1) / 2) := by
    rw [hsw i, if_neg (by omega), if_pos rfl]
  have hswo : ∀ k, ¬ k = (i - 1) / 2 → ¬ k = i →
      nth (swapAt l ((i - 1) / 2) i) k = nth l k := by
    intro k h1 h2
    rw [hsw k, if_neg h1, if_neg h2]
  refine ⟨by omega, ?_, ?_⟩
  · intro c hc0 hcl hcp
    rw [hlen] at hcl
    by_cases hci : c = i
    · subst hci
      rw [hswp, hswi, taskLess_eq_false_iff]
      omega
    · by_cases hg : (c - 1) / 2 = (i - 1) / 2
      · rw [hg, hswp, hswo c hcp hci, taskLess_eq_false_iff]
        have h1 := taskLess_eq_false_iff.mp (st.heap c hc0 hcl hci)
        rw [hg] at h1
        omega
      · by_cases hgi : (c - 1) / 2 = i
        · rw [hgi, hswi, hswo c hcp hci]
          exact st.lower c hc0 hcl hgi
        · rw [hswo _ hg hgi, hswo c hcp hci]
          exact st.heap c hc0 hcl hci
  · intro c hc0 hcl hg
    rw [hlen] at hcl
    have hcP : ¬ c = (i - 1) / 2 := by omega
    by_cases hP0 : (i - 1) / 2 = 0
    · have hGP : ((i - 1) / 2 - 1) / 2 = (i - 1) / 2 := by omega
      rw [hGP, hswp]
      by_cases hci : c = i
      · subst hci
        rw [hswi, taskLess_eq_false_iff]
        omega
      · rw [hswo c hcP hci, taskLess_eq_false_iff]
        have h1 := taskLess_eq_false_iff.mp (st.heap c hc0 hcl hci)
        rw [hg] at h1
        omega
    · have hGne : ¬ ((i - 1) / 2 - 1) / 2 = (i - 1) / 2 := by omega
      have hGni : ¬ ((i - 1) / 2 - 1) / 2 = i := by omega
      rw [hswo _ hGne hGni]
      have hPedge := taskLess_eq_false_iff.mp
        (st.heap ((i - 1) / 2) (by omega) hpb (by omega))
      by_cases hci : c = i
      · subst hci
        rw [hswi, taskLess_eq_false_iff]
        omega
      · rw [hswo c hcP hci, taskLess_eq_false_iff]
        have h1 := taskLess_eq_false_iff.mp (st.heap c hc0 hcl hci)
        rw [hg] at h1
        omega

/-- The sift-up loop turns a sift-up state into a full heap. -/
theorem siftUp_isHeap (l : List QTask) (i : Nat) (st : SiftUpState l i) :
    IsHeap (siftUp l i) := by
  induction l, i using siftUp.induct with
  | case1 l =>
      unfold siftUp
      simp only [if_pos rfl]
      intro c hc0 hcl
      exact st.heap c hc0 hcl (by omega)
  | case2 l i h1 p h2 ih1 =>
      unfold siftUp
      simp only [if_neg h1, h2, if_true]
      exact ih1 (siftUpState_swap st h1 h2)
  | case3 l i h1 p h2 =>
      unfold siftUp
      simp only [if_neg h1]
      rw [if_neg h2]
      intro c hc0 hcl
      by_cases hci : c = i
      · subst hci
        simp only [Bool.not_eq_true] at h2
        exact h2
      · exact st.heap c hc0 hcl hci

/-- Appending a new element to a heap yields a sift-up state at the new
index. -/
theorem siftUpState_push {l : List QTask} (hl : IsHeap l) (t : QTask) :
    SiftUpState (l ++ [t]) l.length := by
  refine ⟨by simp, ?_, ?_⟩
  · intro c hc0 hcl hcne
    simp only [List.length_append, List.length_cons, List.length_nil] at hcl
    have hc : c < l.length := by omega
    have hp : (c - 1) / 2 < l.length := by omega
    rw [nth_append_lt hc, nth_append_lt hp]
    exact hl c hc0 hc
  · intro c hc0 hcl hpar
    simp only [List.length_append, List.length_cons, List.length_nil] at hcl
    omega

/-- `std::priority_queue::push` preserves the heap property. -/
theorem heapPush_isHeap {l : List QTask} (hl : IsHeap l) (t : QTask) :
    IsHeap (heapPush l t) :=
  siftUp_isHeap _ _ (siftUpState_push hl t)

/-- The empty array is a heap. -/
theorem isHeap_nil : IsHeap [] := by
  intro c hc0 hcl
  simp at hcl

/-- Pushing any sequence of tasks produces a heap. -/
theorem pushAll_isHeap (ts : List QTask) : IsHeap (pushAll ts) := by
  have haux : ∀ (us : List QTask) (l : List QTask), IsHeap l →
      IsHeap (us.foldl heapPush l) := by
    intro us
    induction us with
    | nil => intro l hl; exact hl
    | cons u us ih =>
        intro l hl
        exact ih _ (heapPush_isHeap hl u)
  exact haux ts [] isHeap_nil

/-- In a heap, the root has the greatest priority. -/
theorem nth_le_root {l : List QTask} (hl : IsHeap l) :
    ∀ k, k < l.length → (nth l k).priority ≤ (nth l 0).priority := by
  intro k
  induction k using Nat.strong_induction_on with
  | _ k ih =>
    intro hk
    rcases Nat.eq_zero_or_pos k with rfl | hk0
    · exact le_refl _
    · have hpar : (k - 1) / 2 < k := by omega
      have h1 := taskLess_eq_false_iff.mp (hl k hk0 hk)
      exact le_trans h1 (ih _ hpar (by omega))

/-- The selected child is a child of `i`, in range, above `i`. -/
theorem maxChild_lt {l : List QTask} {i : Nat} (hlc : 2 * i + 1 < l.length) :
    i < maxChild l i ∧ maxChild l i < l.length ∧ (maxChild l i - 1) / 2 = i := by
  unfold maxChild
  split
  · next hcond => exact ⟨by omega, hcond.1, by omega⟩
  · exact ⟨by omega, hlc, by omega⟩

/-- The selected child dominates every child of `i`. -/
theorem maxChild_dominates {l : List QTask} {i : Nat} (hlc : 2 * i + 1 < l.length) :
    ∀ c, 0 < c → c < l.length → (c - 1) / 2 = i →
      (nth l c).priority ≤ (nth l (maxChild l i)).priority := by
  intro c hc0 hcl hg
  have hc12 : c = 2 * i + 1 ∨ c = 2 * i + 2 := by omega
  unfold maxChild
  split
  · next hcond =>
      have hlr := taskLess_eq_true_iff.mp hcond.2
      rcases hc12 with rfl | rfl
      · exact le_of_lt hlr
      · exact le_refl _
  · next hcond =>
      rcases hc12 with rfl | rfl
      · exact le_refl _
      · have hfalse : taskLess (nth l (2 * i + 1)) (nth l (2 * i + 2)) = false := by
          cases h : taskLess (nth l (2 * i + 1)) (nth l (2 * i + 2))
          · rfl
          · exact absurd ⟨hcl, h⟩ hcond
        exact taskLess_eq_false_iff.mp hfalse

/-- One sift-down exchange moves the hole to the selected child. -/
theorem siftDownState_swap {l : List QTask} {i : Nat} (st : SiftDownState l i)
    (hlc : 2 * i + 1 < l.length)
    (hlt : taskLess (nth l i) (nth l (maxChild l i)) = true) :
    SiftDownState (swapAt l i (maxChild l i)) (maxChild l i) := by
  obtain ⟨him, hml, hpar⟩ := maxChild_lt hlc
  have hib : i < l.length := st.bounded
  have hsw := nth_swapAt hib hml
  have hlen := length_swapAt l i (maxChild l i)
  have hPI : (nth l i).priority < (nth l (maxChild l i)).priority :=
    taskLess_eq_true_iff.mp hlt
  have hswi : nth (swapAt l i (maxChild l i)) i = nth l (maxChild l i) := by
    rw [hsw i, if_pos rfl]
  have hswm : nth (swapAt l i (maxChild l i)) (maxChild l i) = nth l i := by
    rw [hsw (maxChild l i), if_neg (by omega), if_pos rfl]
  have hswo : ∀ k, ¬ k = i → ¬ k = maxChild l i →
      nth (swapAt l i (maxChild l i)) k = nth l k := by
    intro k h1 h2
    rw [hsw k, if_neg h1, if_neg h2]
  refine ⟨by omega, ?_, ?_⟩
  · intro c hc0 hcl hgm
    rw [hlen] at hcl
    by_cases hcm : c = maxChild l i
    · subst hcm
      rw [hpar, hswi, hswm, taskLess_eq_false_iff]
      omega
    · by_cases hci : c = i
      · subst hci
        have hgne_c : ¬ (c - 1) / 2 = c := by omega
        have hgne_m : ¬ (c - 1) / 2 = maxChild l c := by omega
        rw [hswo _ hgne_c hgne_m, hswi, taskLess_eq_false_iff]
        have h1 := taskLess_eq_false_iff.mp
          (st.upper hc0 (maxChild l c) (by omega) (by omega) hpar)
        omega
      · by_cases hgi : (c - 1) / 2 = i
        · rw [hswo c hci hcm, hgi, hswi, taskLess_eq_false_iff]
          have h1 := maxChild_dominates hlc c hc0 hcl hgi
          omega
        · rw [hswo c hci hcm, hswo _ hgi hgm]
          exact st.heap c hc0 hcl hgi
  · intro hm0 c hc0 hcl hg
    rw [hlen] at hcl
    rw [hpar, hswi]
    have hcm : ¬ c = maxChild l i := by omega
    have hci : ¬ c = i := by omega
    rw [hswo c hci hcm, taskLess_eq_false_iff]
    have h1 := taskLess_eq_false_iff.mp (st.heap c hc0 hcl (by omega))
    rw [hg] at h1
    omega

/-- A sift-down state whose hole already dominates its greater child is a
heap. -/
theorem siftDown_done_isHeap {l : List QTask} {i : Nat} (st : SiftDownState l i)
    (hlc : 2 * i + 1 < l.length)
    (hge : ¬ taskLess (nth l i) (nth l (maxChild l i)) = true) : IsHeap l := by
  simp only [Bool.not_eq_true] at hge
  have hIM := taskLess_eq_false_iff.mp hge
  intro c hc0 hcl
  by_cases hg : (c - 1) / 2 = i
  · rw [hg, taskLess_eq_false_iff]
    have h1 := maxChild_dominates hlc c hc0 hcl hg
    omega
  · exact st.heap c hc0 hcl hg

/-- A sift-down state whose hole has no children is a heap. -/
theorem siftDown_leaf_isHeap {l : List QTask} {i : Nat} (st : SiftDownState l i)
    (hnlc : ¬ 2 * i + 1 < l.length) : IsHeap l := by
  intro c hc0 hcl
  by_cases hg : (c - 1) / 2 = i
  · omega
  · exact st.heap c hc0 hcl hg

/-- The sift-down loop turns a sift-down state into a full heap. -/
theorem siftDown_isHeap (l : List QTask) (i : Nat) (st : SiftDownState l i) :
    IsHeap (siftDown l i) := by
  induction l, i using siftDown.induct with
  | case1 l i hlc hcond ih1 =>
      unfold siftDown
      simp only [dif_pos hlc, hcond, if_true]
      exact ih1 (siftDownState_swap st hlc hcond)
  | case2 l i hlc hcond =>
      unfold siftDown
      simp only [dif_pos hlc]
      rw [if_neg hcond]
      exact siftDown_done_isHeap st hlc hcond
  | case3 l i hnlc =>
      unfold siftDown
      simp only [dif_neg hnlc]
      exact siftDown_leaf_isHeap st hnlc

/-- Sifting down preserves the array length. -/
theorem length_siftDown (l : List QTask) (i : Nat) :
    (siftDown l i).length = l.length := by
  induction l, i using siftDown.induct with
  | case1 l i hlc hcond ih1 =>
      unfold siftDown
      simp only [dif_pos hlc, hcond, if_true]
      rw [ih1, length_swapAt]
  | case2 l i hlc hcond =>
      unfold siftDown
      simp only [dif_pos hlc]
      rw [if_neg hcond]
  | case3 l i hnlc =>
      unfold siftDown
      simp only [dif_neg hnlc]

/-- Members of the sifted array are members of the original. -/
theorem mem_siftDown {l : List QTask} {i : Nat} {x : QTask}
    (hx : x ∈ siftDown l i) : x ∈ l := by
  induction l, i using siftDown.induct with
  | case1 l i hlc hcond ih1 =>
      unfold siftDown at hx
      simp only [dif_pos hlc, hcond, if_true] at hx
      exact mem_swapAt (ih1 hx)
  | case2 l i hlc hcond =>
      unfold siftDown at hx
      simp only [dif_pos hlc] at hx
      rw [if_neg hcond] at hx
      exact hx
  | case3 l i hnlc =>
      unfold siftDown at hx
      simp only [dif_neg hnlc] at hx
      exact hx

/-- Reading within the taken prefix. -/
theorem nth_take {l : List QTask} {n k : Nat} (hk : k < n) :
    nth (l.take n) k = nth l k := by
  rw [nth, nth, List.getD_eq_get?, List.getD_eq_get?, List.get?_take hk]

/-- Replacing the root of a heap by its last element and dropping the last
position leaves a sift-down state at the root. -/
theorem siftDownState_pop {l : List QTask} (hl : IsHeap l) (h2 : 2 ≤ l.length) :
    SiftDownState
      ((l.set 0 (nth l (l.length - 1))).take (l.length - 1)) 0 := by
  have hlen : ((l.set 0 (nth l (l.length - 1))).take (l.length - 1)).length =
      l.length - 1 := by
    rw [List.length_take, List.length_set]
    omega
  have hval : ∀ k, k < l.length - 1 →
      nth ((l.set 0 (nth l (l.length - 1))).take (l.length - 1)) k =
        if k = 0 then nth l (l.length - 1) else nth l k := by
    intro k hk
    rw [nth_take hk, nth_set _ _ (by omega)]
  refine ⟨by omega, ?_, ?_⟩
  · intro c hc0 hcl hg
    rw [hlen] at hcl
    rw [hval c hcl, hval ((c - 1) / 2) (by omega), if_neg (by omega),
      if_neg (by omega)]
    exact hl c hc0 (by omega)
  · intro h0
    exact absurd h0 (by omega)

/-- What `heapPop` returns: the root, an array one shorter drawn from the
original elements, and (for a heap) a heap again. -/
theorem heapPop_some {l : List QTask} {t : QTask} {rest : List QTask}
    (hp : heapPop l = some (t, rest)) :
    t = nth l 0 ∧ rest.length = l.length - 1 ∧ (∀ x ∈ rest, x ∈ l) ∧
      (IsHeap l → IsHeap rest) := by
  match l with
  | [] => simp [heapPop] at hp
  | [a] =>
      simp only [heapPop, Option.some.injEq, Prod.mk.injEq] at hp
      obtain ⟨rfl, rfl⟩ := hp
      refine ⟨rfl, rfl, by simp, fun _ => isHeap_nil⟩
  | a :: b :: tl =>
      simp only [heapPop, Option.some.injEq, Prod.mk.injEq] at hp
      obtain ⟨rfl, rfl⟩ := hp
      have hln : 2 ≤ (a :: b :: tl).length := by simp
      refine ⟨rfl, ?_, ?_, ?_⟩
      · rw [length_siftDown, List.length_take, List.length_set]
        simp
      · intro x hx
        have hx2 := mem_siftDown hx
        have hx3 := List.take_subset _ _ hx2
        rcases List.mem_or_eq_of_mem_set hx3 with hx4 | rfl
        · exact hx4
        · exact nth_mem (by simp)
      · intro hl
        exact siftDown_isHeap _ 0 (siftDownState_pop hl hln)

/-- `heapPop` yields nothing only on the empty array. -/
theorem heapPop_eq_none {l : List QTask} (hp : heapPop l = none) : l = [] := by
  match l with
  | [] => rfl
  | [a] => simp [heapPop] at hp
  | a :: b :: tl => simp [heapPop] at hp

/-- Every popped task was in the queue. -/
theorem mem_popAllFuel : ∀ {fuel : Nat} {l : List QTask} {x : QTask},
    x ∈ popAllFuel fuel l → x ∈ l := by
  intro fuel
  induction fuel with
  | zero => intro l x hx; simp [popAllFuel] at hx
  | succ fuel ih =>
      intro l x hx
      simp only [popAllFuel] at hx
      cases hp : heapPop l with
      | none => rw [hp] at hx; simp at hx
      | some tr =>
          obtain ⟨t, rest⟩ := tr
          rw [hp] at hx
          obtain ⟨ht, _, hmem, _⟩ := heapPop_some hp
          rcases List.mem_cons.mp hx with rfl | hx2
          · have hl0 : 0 < l.length := by
              cases l with
              | nil => simp [heapPop] at hp
              | cons => simp
            exact ht ▸ nth_mem hl0
          · exact hmem x (ih hx2)

/-- Popping a heap dry yields the tasks in non-increasing priority order. -/
theorem popAllFuel_pairwise : ∀ (fuel : Nat) {l : List QTask}, IsHeap l →
    List.Pairwise (fun a b => b.priority ≤ a.priority) (popAllFuel fuel l) := by
  intro fuel
  induction fuel with
  | zero => intro l hl; exact List.Pairwise.nil
  | succ fuel ih =>
      intro l hl
      cases hp : heapPop l with
      | none => simp [popAllFuel, hp]
      | some tr =>
          obtain ⟨t, rest⟩ := tr
          obtain ⟨ht, hlen, hmem, hheap⟩ := heapPop_some hp
          simp only [popAllFuel, hp]
          rw [List.pairwise_cons]
          refine ⟨?_, ih (hheap hl)⟩
          intro x hx
          have hxl : x ∈ l := hmem x (mem_popAllFuel hx)
          obtain ⟨k, hk⟩ := List.get?_of_mem hxl
          have hkl : k < l.length := (List.get?_eq_some.mp hk).1
          have hxk : nth l k = x := by
            rw [nth, List.getD_eq_get?, hk]
            rfl
          rw [ht, ← hxk]
          exact nth_le_root hl k hkl

/-- With fuel covering the array, popping returns as many tasks as were
stored. -/
theorem popAllFuel_length : ∀ (fuel : Nat) {l : List QTask}, l.length ≤ fuel →
    (popAllFuel fuel l).length = l.length := by
  intro fuel
  induction fuel with
  | zero =>
      intro l hf
      have : l = [] := List.length_eq_zero.mp (by omega)
      subst this
      rfl
  | succ fuel ih =>
      intro l hf
      cases hp : heapPop l with
      | none =>
          rw [heapPop_eq_none hp]
          simp [popAllFuel, heapPop]
      | some tr =>
          obtain ⟨t, rest⟩ := tr
          obtain ⟨_, hlen, _, _⟩ := heapPop_some hp
          have hl0 : 0 < l.length := by
            cases l with
            | nil => simp [heapPop] at hp
            | cons => simp
          simp only [popAllFuel, hp, List.length_cons]
          rw [ih (by omega)]
          omega

/-- Sifting up preserves the array length. -/
theorem length_siftUp (l : List QTask) (i : Nat) :
    (siftUp l i).length = l.length := by
  induction l, i using siftUp.induct with
  | case1 l =>
      unfold siftUp
      simp
  | case2 l i h1 p h2 ih1 =>
      unfold siftUp
      simp only [if_neg h1, h2, if_true]
      rw [ih1, length_swapAt]
  | case3 l i h1 p h2 =>
      unfold siftUp
      simp only [if_neg h1]
      rw [if_neg h2]

/-- Pushing grows the array by one. -/
theorem length_heapPush (l : List QTask) (t : QTask) :
    (heapPush l t).length = l.length + 1 := by
  unfold heapPush
  rw [length_siftUp]
  simp

/-- The built heap holds as many tasks as were pushed. -/
theorem length_pushAll (ts : List QTask) : (pushAll ts).length = ts.length := by
  have haux : ∀ (us : List QTask) (l : List QTask),
      (us.foldl heapPush l).length = l.length + us.length := by
    intro us
    induction us with
    | nil => intro l; simp
    | cons u us ih =>
        intro l
        simp only [List.foldl_cons, ih, length_heapPush, List.length_cons]
        omega
  simpa using haux ts []

end TaskPool

namespace LockFreeQueue

/-- Every index on a node chain is a valid store index. -/
theorem nodeChain_lt {α} {store : List (Node α)} {p : Option Nat} {l : List Nat}
    (hc : NodeChain store p l) : ∀ i ∈ l, i < store.length := by
  induction hc with
  | nil => intro i hi; cases hi
  | cons hget _ ih =>
      intro j hj
      rcases List.mem_cons.mp hj with rfl | hj
      · exact (List.get?_eq_some.mp hget).1
      · exact ih j hj

/-- A chain from a non-null pointer starts at that pointer's node. -/
theorem nodeChain_some {α} {store : List (Node α)} {i : Nat} {l : List Nat}
    (h : NodeChain store (some i) l) :
    ∃ nd l2, store.get? i = some nd ∧ l = i :: l2 ∧ NodeChain store nd.next l2 := by
  cases h with
  | cons hget htail => exact ⟨_, _, hget, rfl, htail⟩

/-- The element named by `getLast?` is a member of the list. -/
theorem getLast?_mem {l : List Nat} {x : Nat} (h : l.getLast? = some x) : x ∈ l := by
  obtain ⟨h2, hx⟩ := List.mem_getLast?_eq_getLast (show x ∈ l.getLast? from h)
  exact hx ▸ List.getLast_mem h2

/-- A chain that is the empty list starts at the null pointer. -/
theorem nodeChain_nil {α} {store : List (Node α)} {p : Option Nat}
    (h : NodeChain store p []) : p = none := by
  cases hp : p with
  | none => rfl
  | some i =>
      rw [hp] at h
      obtain ⟨nd, l2, _, hcons, _⟩ := nodeChain_some h
      cases hcons

/-- The last node of a chain has a null next pointer. -/
theorem nodeChain_last {α} {store : List (Node α)} {p : Option Nat} {l : List Nat}
    (hc : NodeChain store p l) :
    ∀ {t : Nat}, l.getLast? = some t → ∃ nd, store.get? t = some nd ∧ nd.next = none := by
  induction hc with
  | nil => intro t ht; simp at ht
  | cons hget htail ih =>
      rename_i i nd l2
      intro t ht
      cases l2 with
      | nil =>
          have hti : i = t := by simpa using ht
          subst hti
          exact ⟨nd, hget, nodeChain_nil htail⟩
      | cons b l3 =>
          rw [List.getLast?_cons_cons] at ht
          exact ih ht

/-- Chains are unaffected by growing the store with new nodes. -/
theorem nodeChain_append {α} {store ext : List (Node α)} {p : Option Nat}
    {l : List Nat} (hc : NodeChain store p l) : NodeChain (store ++ ext) p l := by
  induction hc with
  | nil => exact .nil
  | cons hget htail ih =>
      exact .cons (by rw [List.get?_append (List.get?_eq_some.mp hget).1]; exact hget) ih

/-- Linking a fresh terminal node after the chain's last node extends the
chain by exactly that node. -/
theorem nodeChain_link {α} {store : List (Node α)} {newIdx : Nat}
    {newNode : Node α} (hnew : store.get? newIdx = some newNode)
    (hnn : newNode.next = none) {p : Option Nat} {l : List Nat}
    (hc : NodeChain store p l) :
    l.Nodup → newIdx ∉ l → ∀ {t : Nat} {tn : Node α}, l.getLast? = some t →
      store.get? t = some tn →
      NodeChain (store.set t { tn with next := some newIdx }) p (l ++ [newIdx]) := by
  induction hc with
  | nil => intro _ _ t tn ht _; simp at ht
  | cons hget htail ih =>
      rename_i i nd l2
      intro hnd hfresh t tn ht htn
      cases l2 with
      | nil =>
          have hti : i = t := by simpa using ht
          subst hti
          have hndtn : nd = tn := by
            rw [hget] at htn
            exact Option.some.inj htn
          subst hndtn
          have hlt : i < store.length := (List.get?_eq_some.mp hget).1
          have hne : newIdx ≠ i := by
            intro h
            exact hfresh (h ▸ List.mem_singleton_self i)
          have h1 : (store.set i { nd with next := some newIdx }).get? newIdx =
              some newNode := by
            rw [List.get?_set_ne _ _ (fun h => hne h.symm)]
            exact hnew
          have h2 : NodeChain (store.set i { nd with next := some newIdx })
              newNode.next [] := by
            rw [hnn]
            exact .nil
          exact .cons (List.get?_set_eq_of_lt _ hlt) (.cons h1 h2)
      | cons b l3 =>
          have hmem : t ∈ b :: l3 :=
            getLast?_mem (by rw [List.getLast?_cons_cons] at ht; exact ht)
          have hit : i ≠ t := by
            intro h
            exact (List.nodup_cons.mp hnd).1 (h ▸ hmem)
          have hg2 : (store.set t { tn with next := some newIdx }).get? i =
              some nd := by
            rw [List.get?_set_ne _ _ (Ne.symm hit)]
            exact hget
          have htl2 := ih (List.nodup_cons.mp hnd).2
            (fun h => hfresh (List.mem_cons_of_mem i h))
            (by rw [List.getLast?_cons_cons] at ht; exact ht) htn
          exact .cons hg2 htl2

/-- The queue invariant holds right after construction: the chain is the
single dummy node. -/
theorem inv_mkQueue {α} (dflt : α) (cap : Nat) : Inv (mkQueue dflt cap) := by
  refine ⟨[0], .cons rfl .nil, by simp, by simp, rfl, rfl⟩

/-- Under the invariant `head` is a valid pointer, `dequeue` never
dereferences an invalid pointer, the empty answer coincides with the head
node's successor being null and with `size = 0`, and the invariant is
preserved. -/
theorem dequeue_inv {α} {q : Queue α} (hq : Inv q) :
    ∃ h nd, q.head = some h ∧ q.store.get? h = some nd ∧
      ((nd.next = none ∧ q.size = 0 ∧ dequeue q = some (false, none, q)) ∨
       (∃ nx nxnd, nd.next = some nx ∧ q.store.get? nx = some nxnd ∧ 0 < q.size ∧
         dequeue q = some (true, some nxnd.data,
           { q with head := some nx, size := q.size - 1 }) ∧
         Inv { q with head := some nx, size := q.size - 1 })) := by
  obtain ⟨l, hc, hne, hnd, htail, hsize⟩ := hq
  cases hh : q.head with
  | none =>
      rw [hh] at hc
      cases hc
      exact absurd rfl hne
  | some h =>
      rw [hh] at hc
      obtain ⟨nd, l2, hget, rfl, htail2⟩ := nodeChain_some hc
      refine ⟨h, nd, rfl, hget, ?_⟩
      cases hnx : nd.next with
      | none =>
          rw [hnx] at htail2
          cases htail2
          refine .inl ⟨rfl, ?_, ?_⟩
          · simp only [List.length_cons, List.length_nil] at hsize
            omega
          · simp only [dequeue, hh, hget, hnx]
      | some nx =>
          rw [hnx] at htail2
          obtain ⟨nxnd, l3, hgetnx, rfl, htail3⟩ := nodeChain_some htail2
          have hpos : 0 < q.size := by
            simp only [List.length_cons] at hsize
            omega
          refine .inr ⟨nx, nxnd, rfl, hgetnx, hpos, ?_, ?_⟩
          · simp only [dequeue, hh, hget, hnx, hgetnx]
          · refine ⟨nx :: l3, .cons hgetnx htail3, by simp, ?_, ?_, ?_⟩
            · exact (List.nodup_cons.mp hnd).2
            · rw [htail, List.getLast?_cons_cons]
            · simp only [List.length_cons] at hsize ⊢
              omega

/-- Under the invariant `enqueue` never dereferences an invalid pointer:
it either rejects on a full size counter leaving the queue unchanged, or
links the new value after the old last node, and the invariant is
preserved either way. -/
theorem enqueue_inv {α} {q : Queue α} (v : α) (hq : Inv q) :
    (q.capacity ≤ q.size ∧ enqueue q v = some (false, q)) ∨
    (q.size < q.capacity ∧ ∃ q2, enqueue q v = some (true, q2) ∧ Inv q2 ∧
      q2.size = q.size + 1) := by
  obtain ⟨l, hc, hne, hnd, htail, hsize⟩ := hq
  by_cases hcap : q.capacity ≤ q.size
  · exact .inl ⟨hcap, by simp [enqueue, hcap]⟩
  · refine .inr ⟨by omega, ?_⟩
    have hlast : ∃ t, l.getLast? = some t := by
      cases hl : l.getLast? with
      | none => exact absurd (List.getLast?_eq_none_iff.mp hl) hne
      | some t => exact ⟨t, rfl⟩
    obtain ⟨t, hlastt⟩ := hlast
    obtain ⟨tn, hgett, htnnext⟩ := nodeChain_last hc hlastt
    have hlt : t < q.store.length := (List.get?_eq_some.mp hgett).1
    -- the grown store after `new Node(value)`
    have hget1 : (q.store ++ [(⟨v, none⟩ : Node α)]).get? t = some tn := by
      rw [List.get?_append hlt]
      exact hgett
    have hnew : (q.store ++ [(⟨v, none⟩ : Node α)]).get? q.store.length =
        some (⟨v, none⟩ : Node α) := List.get?_concat_length _ _
    have hfresh : q.store.length ∉ l := by
      intro hmem
      exact absurd (nodeChain_lt hc _ hmem) (by omega)
    have hchain1 : NodeChain (q.store ++ [(⟨v, none⟩ : Node α)]) q.head l := nodeChain_append hc
    have hlinked := nodeChain_link hnew rfl hchain1 hnd hfresh hlastt hget1
    have htailt : q.tail = some t := by rw [htail, hlastt]
    refine ⟨{ q with
        store := (q.store ++ [(⟨v, none⟩ : Node α)]).set t { tn with next := some q.store.length },
        tail := some q.store.length,
        size := q.size + 1 }, ?_, ?_, rfl⟩
    · simp only [enqueue, if_neg hcap, htailt]
      rw [show (q.store ++ [(⟨v, none⟩ : Node α)]).length = q.store.length + 1 by simp]
      simp only [enqueueFrom, hget1, htnnext]
      rfl
    · refine ⟨l ++ [q.store.length], hlinked, by simp, ?_, ?_, ?_⟩
      · refine List.nodup_append.mpr ⟨hnd, List.nodup_singleton _, ?_⟩
        intro a ha hb
        rw [List.mem_singleton.mp hb] at ha
        exact hfresh ha
      · simp [List.getLast?_concat]
      · simp only [List.length_append, List.length_cons, List.length_nil]
        omega

end LockFreeQueue

/-! ## The claims -/

/-- Claim C1 (amended): after shutdown, `ThreadPool::SubmitTask` raises the
runtime error "Submit task on stopped thread pool" and enqueues nothing,
while `TaskPool::enqueue` drops the task (logging "pool stoped" to stderr)
and returns a future that resolves to a generic broken-promise failure —
the caller never holds a future that stays unresolved, but the failure does
not signal "pool stopped". -/
theorem C1_submit_after_shutdown_amended :
    (∀ (q : List PoolTypeStructure.Task) t,
        PoolTypeStructure.SubmitTask ⟨q, true⟩ t =
          .error "Submit task on stopped thread pool") ∧
    (∀ (ts : List TaskPool.QTask) (pri : Int) (seq : Nat),
        TaskPool.enqueue ⟨true, ts⟩ pri seq =
          (⟨true, ts⟩, .failed .brokenPromiseError, some "pool stoped")) := by
  constructor
  · intro q t
    simp [PoolTypeStructure.SubmitTask]
  · intro ts pri seq
    simp [TaskPool.enqueue]

/-- Claim C1 counterexample: on a stopped `TaskPool`, `enqueue` returns
normally with a future destined for a broken-promise failure — not the
"pool stopped" failure the claim demands — and the task is dropped (the
queue is unchanged). -/
theorem C1_counterexample :
    TaskPool.enqueue ⟨true, []⟩ 5 0 =
      (⟨true, []⟩, .failed .brokenPromiseError, some "pool stoped") ∧
    (TaskPool.enqueue ⟨true, []⟩ 5 0).2.1 ≠
      .failed .poolStoppedError ∧
    (TaskPool.enqueue ⟨true, []⟩ 5 0).1.tasks = [] := by
  refine ⟨rfl, by decide, rfl⟩

/-- Claim C2 (amended): popping the `std::priority_queue` built from any
sequence of submissions returns exactly as many tasks as were pushed, in
non-increasing priority order; among tasks of equal priority the order is
heap order, which need not be submission order (the code stores no
sequence number). -/
theorem C2_priority_order_amended (ts : List TaskPool.QTask) :
    List.Pairwise (fun a b => b.priority ≤ a.priority)
      (TaskPool.popAll (TaskPool.pushAll ts)) ∧
    (TaskPool.popAll (TaskPool.pushAll ts)).length = ts.length := by
  constructor
  · exact TaskPool.popAllFuel_pairwise _ (TaskPool.pushAll_isHeap ts)
  · rw [TaskPool.popAll, TaskPool.popAllFuel_length _ (le_refl _),
      TaskPool.length_pushAll]

/-- Claim C2 counterexample: three equal-priority tasks submitted in order
1, 2, 3 pop in order 1, 3, 2 — the FIFO tie-break the claim requires does
not hold. -/
theorem C2_counterexample :
    TaskPool.popAll (TaskPool.pushAll [⟨5, 1⟩, ⟨5, 2⟩, ⟨5, 3⟩]) =
      [⟨5, 1⟩, ⟨5, 3⟩, ⟨5, 2⟩] ∧
    (TaskPool.popAll (TaskPool.pushAll [⟨5, 1⟩, ⟨5, 2⟩, ⟨5, 3⟩])).map
        TaskPool.QTask.seq ≠ [1, 2, 3] := by
  have h : TaskPool.popAll (TaskPool.pushAll [⟨5, 1⟩, ⟨5, 2⟩, ⟨5, 3⟩]) =
      [⟨5, 1⟩, ⟨5, 3⟩, ⟨5, 2⟩] := by
    simp [TaskPool.popAll, TaskPool.pushAll, TaskPool.popAllFuel,
      TaskPool.heapPop, TaskPool.heapPush, TaskPool.siftUp, TaskPool.siftDown,
      TaskPool.maxChild, TaskPool.swapAt, TaskPool.taskLess]
  refine ⟨h, ?_⟩
  rw [h]
  decide

/-- Claim C3 (code bug, evaluated at the failing input): the `TaskPool`
worker's wait predicate (task_pool.hpp line 18) reads
`stop || tasks.empty()`, so on a running pool holding one queued task the
predicate is false and the worker stays blocked in `cv.wait` instead of
popping the task — while `ThreadPool::FetchTask` (thread_pool.cpp lines
82-84), the other implementation the claim covers, returns the queued task
from the same situation. -/
theorem C3_taskPool_worker_blocks_on_nonempty_queue :
    TaskPool.workerWaitPredicate ⟨false, [⟨5, 0⟩]⟩ = false ∧
    TaskPool.workerStep ⟨false, [⟨5, 0⟩]⟩ = .blockedInWait ∧
    PoolTypeStructure.FetchTask ⟨[⟨0, .value 0⟩], false⟩ =
      .task ⟨0, .value 0⟩ ⟨[], false⟩ := by
  refine ⟨by decide, by decide, rfl⟩

/-- Claim C4 (amended): in `PoolTypeStructure::ThreadPool` a task body's
exception is stored by the `std::packaged_task` into that task's own future,
the worker survives every task outcome and drains the whole queue, and each
queued task's future holds exactly its own body's outcome; in the simple
`PoolStructure` pool, however, the worker invokes the task with no try/catch
and no result channel, so a throwing body escapes the worker loop at once
and every task still queued behind it is left unexecuted. -/
theorem C4_worker_exception_isolation_amended :
    (∀ q : List PoolTypeStructure.Task,
        (PoolTypeStructure.WorkerThreadProc ⟨q, true⟩).1 =
          q.map fun t => (t.id, PoolTypeStructure.runWrapper t)) ∧
    (∀ i m, PoolTypeStructure.runWrapper ⟨i, .thrown m⟩ = .resolvedError m) ∧
    (∀ i m post, SimplePool.workerRun (⟨i, .thrown m⟩ :: post) =
        ([], some m, post)) ∧
    (∀ i v rest, SimplePool.workerRun (⟨i, .value v⟩ :: rest) =
        (i :: (SimplePool.workerRun rest).1,
         (SimplePool.workerRun rest).2.1, (SimplePool.workerRun rest).2.2)) := by
  refine ⟨?_, ?_, ?_, ?_⟩
  · intro q
    simp [PoolTypeStructure.worker_drain]
  · intro i m
    rfl
  · intro i m post
    rfl
  · intro i v rest
    rfl

/-- Claim C4 counterexample: in the simple pool a throwing first task makes
the exception escape the worker (which therefore terminates), no task
completes, and the second queued task is left unexecuted — its outcome is
affected by the first task's failure. -/
theorem C4_counterexample :
    (SimplePool.workerRun [⟨1, .thrown "boom"⟩, ⟨2, .value 7⟩]).2.1 =
      some "boom" ∧
    (SimplePool.workerRun [⟨1, .thrown "boom"⟩, ⟨2, .value 7⟩]).1 = [] ∧
    (SimplePool.workerRun [⟨1, .thrown "boom"⟩, ⟨2, .value 7⟩]).2.2 =
      [⟨2, .value 7⟩] := by
  refine ⟨rfl, rfl, rfl⟩

/-- Claim C5: shutting down a `PoolTypeStructure::ThreadPool` that still
holds queued-but-unstarted tasks makes the worker loop execute exactly the
queued tasks, each exactly once, in order, before the worker exits; the
final queue is empty, so nothing is discarded and nothing runs twice. -/
theorem C5_graceful_shutdown_executes_pending_exactly_once
    (q : List PoolTypeStructure.Task) (sd : Bool) :
    (PoolTypeStructure.WorkerThreadProc
        (PoolTypeStructure.Shutdown ⟨q, sd⟩)).1.map Prod.fst =
      q.map PoolTypeStructure.Task.id ∧
    (PoolTypeStructure.WorkerThreadProc
        (PoolTypeStructure.Shutdown ⟨q, sd⟩)).2.queue = [] := by
  simp [PoolTypeStructure.Shutdown, PoolTypeStructure.worker_drain]

/-- Claim C6 (amended): `PoolTypeStructure::ThreadPool` fails fast with
`std::invalid_argument` on a zero thread count and spawns exactly
`threadCount` workers otherwise, but `TaskPool` performs no validation:
`TaskPool(0)` succeeds and produces a pool with zero workers. -/
theorem C6_zero_thread_construction_amended :
    (∀ f, PoolTypeStructure.ThreadPoolCtor 0 f =
        .error (.invalidArgument "Thread number cannot be zero",
                ⟨0, 0, false⟩)) ∧
    (∀ n, PoolTypeStructure.ThreadPoolCtor (n + 1) (fun _ => false) =
        .ok ⟨n + 1, 0, false⟩) ∧
    (∀ z : Int, TaskPool.TaskPoolCtor z = .ok (⟨false, []⟩, z.toNat)) := by
  refine ⟨?_, ?_, ?_⟩
  · intro f
    rfl
  · intro n
    have h := PoolTypeStructure.spawnWorkers_ok (fun _ => false)
      (fun _ => rfl) (n + 1) 0
    simp [PoolTypeStructure.ThreadPoolCtor, h]
  · intro z
    rfl

/-- Claim C6 counterexample: constructing a `TaskPool` with thread count 0
does not fail — it returns a pool object with zero spawned workers. -/
theorem C6_counterexample :
    TaskPool.TaskPoolCtor 0 = .ok (⟨false, []⟩, 0) ∧
    (∀ e, TaskPool.TaskPoolCtor 0 ≠ .error e) := by
  exact ⟨rfl, fun e h => by simp [TaskPool.TaskPoolCtor] at h⟩

/-- Claim C7: `LockFreeQueue::dequeue` follows the two-pointer protocol: it
reads `head` and the head node's successor; a null successor means the queue
is empty (`false` is returned and the output argument is untouched); a
non-null successor becomes the new `head` via compare-and-swap and its
payload is returned. -/
theorem C7_dequeue_two_pointer_protocol {α : Type} (q : LockFreeQueue.Queue α)
    (h : Nat) (nd : LockFreeQueue.Node α)
    (hh : q.head = some h) (hnd : q.store.get? h = some nd) :
    (nd.next = none → LockFreeQueue.dequeue q = some (false, none, q)) ∧
    (∀ nx nxnd, nd.next = some nx → q.store.get? nx = some nxnd →
      LockFreeQueue.dequeue q = some (true, some nxnd.data,
        { q with head := some nx, size := q.size - 1 })) := by
  constructor
  · intro hnone
    simp only [LockFreeQueue.dequeue, hh, hnd, hnone]
  · intro nx nxnd hsome hnx
    simp only [LockFreeQueue.dequeue, hh, hnd, hsome, hnx]

/-- Claim C7 witness: on the concrete one-element queue obtained by
enqueueing 5 into a fresh queue, `dequeue` advances `head` to the successor
and returns the successor's payload 5. -/
theorem C7_witness :
    LockFreeQueue.dequeue
        (⟨[⟨0, some 1⟩, ⟨5, none⟩], some 0, some 1, 1, 10⟩ :
          LockFreeQueue.Queue Int) =
      some (true, some 5,
        ⟨[⟨0, some 1⟩, ⟨5, none⟩], some 1, some 1, 0, 10⟩) :=
  (C7_dequeue_two_pointer_protocol
      (⟨[⟨0, some 1⟩, ⟨5, none⟩], some 0, some 1, 1, 10⟩ :
        LockFreeQueue.Queue Int) 0 ⟨0, some 1⟩ rfl rfl).2 1 ⟨5, none⟩ rfl rfl

/-- Claim C8: the lock-free queue always holds at least the sentinel node:
the invariant (a non-empty, duplicate-free chain from `head` whose last node
is `tail` and whose length past the sentinel is `size`) holds after
construction and is preserved by every `enqueue` and every `dequeue` (which
in particular never dereference an invalid pointer), `head` is never null,
and the queue is empty exactly when the single head node's next pointer is
null. -/
theorem C8_sentinel_invariant :
    (∀ (α : Type) (dflt : α) (cap : Nat),
      LockFreeQueue.Inv (LockFreeQueue.mkQueue dflt cap)) ∧
    (∀ (α : Type) (q : LockFreeQueue.Queue α) (v : α), LockFreeQueue.Inv q →
      ∃ r, LockFreeQueue.enqueue q v = some r ∧ LockFreeQueue.Inv r.2) ∧
    (∀ (α : Type) (q : LockFreeQueue.Queue α), LockFreeQueue.Inv q →
      ∃ r, LockFreeQueue.dequeue q = some r ∧ LockFreeQueue.Inv r.2.2) ∧
    (∀ (α : Type) (q : LockFreeQueue.Queue α), LockFreeQueue.Inv q →
      q.head.isSome = true ∧
      ((∃ h nd, q.head = some h ∧ q.store.get? h = some nd ∧ nd.next = none) ↔
        q.size = 0)) := by
  refine ⟨fun α d c => LockFreeQueue.inv_mkQueue d c, ?_, ?_, ?_⟩
  · intro α q v hq
    rcases LockFreeQueue.enqueue_inv v hq with ⟨_, henq⟩ | ⟨_, q2, henq, hinv, _⟩
    · exact ⟨(false, q), henq, hq⟩
    · exact ⟨(true, q2), henq, hinv⟩
  · intro α q hq
    obtain ⟨h, nd, hh, hnd, hcase⟩ := LockFreeQueue.dequeue_inv hq
    rcases hcase with ⟨_, _, hdq⟩ | ⟨nx, nxnd, _, _, _, hdq, hinv⟩
    · exact ⟨(false, none, q), hdq, hq⟩
    · exact ⟨(true, some nxnd.data, _), hdq, hinv⟩
  · intro α q hq
    obtain ⟨h, nd, hh, hnd, hcase⟩ := LockFreeQueue.dequeue_inv hq
    refine ⟨by rw [hh]; rfl, ?_⟩
    rcases hcase with ⟨hnone, hsz, _⟩ | ⟨nx, nxnd, hsome, _, hpos, _, _⟩
    · exact ⟨fun _ => hsz, fun _ => ⟨h, nd, hh, hnd, hnone⟩⟩
    · constructor
      · rintro ⟨h2, nd2, hh2, hnd2, hnone2⟩
        rw [hh] at hh2
        obtain rfl : h = h2 := Option.some.inj hh2
        rw [hnd] at hnd2
        obtain rfl : nd = nd2 := Option.some.inj hnd2
        rw [hnone2] at hsome
        cases hsome
      · intro hsz
        omega

/-- Claim C8 witness: applying the preservation statement to the concrete
freshly constructed queue: its `dequeue` is well defined and preserves the
invariant. -/
theorem C8_witness :
    ∃ r, LockFreeQueue.dequeue (LockFreeQueue.mkQueue (0 : Int) 10) = some r ∧
      LockFreeQueue.Inv r.2.2 :=
  C8_sentinel_invariant.2.2.1 Int (LockFreeQueue.mkQueue 0 10)
    (LockFreeQueue.inv_mkQueue 0 10)

/-- Claim C9: if creating a worker thread throws after `k` workers were
already spawned, the constructor's catch block runs `Shutdown()` — joining
all `k` spawned workers — and rethrows, so the failed construction leaves
no worker running. -/
theorem C9_ctor_failure_joins_spawned_workers
    (n k : Nat) (f : Nat → Bool) (hn : n ≠ 0)
    (hs : PoolTypeStructure.SpawnWorkers f 0 n = .error k) :
    PoolTypeStructure.ThreadPoolCtor n f =
      .error (.spawnFailure, { spawned := k, joined := k, isShutdown := true }) := by
  unfold PoolTypeStructure.ThreadPoolCtor
  rw [if_neg hn, hs]
  rfl

/-- Claim C9 witness: with three workers requested and the second spawn
failing, construction fails after one worker was spawned and that worker is
joined. -/
theorem C9_witness :
    PoolTypeStructure.ThreadPoolCtor 3 (fun i => decide (i = 1)) =
      .error (.spawnFailure, { spawned := 1, joined := 1, isShutdown := true }) :=
  C9_ctor_failure_joins_spawned_workers 3 1 (fun i => decide (i = 1))
    (by decide) rfl

/-- Claim C10: `SubmitTask` (which takes no priority argument) appends each
task to the back of the FIFO queue, `FetchTask` removes from the front, and
a single worker therefore executes any sequence of submissions exactly in
submission order. -/
theorem C10_fifo_pool_executes_in_submission_order
    (ts : List PoolTypeStructure.Task) :
    PoolTypeStructure.submitAll ⟨[], false⟩ ts = .ok ⟨ts, false⟩ ∧
    (∀ t rest sd, PoolTypeStructure.FetchTask ⟨t :: rest, sd⟩ =
        .task t ⟨rest, sd⟩) ∧
    (PoolTypeStructure.WorkerThreadProc
        (PoolTypeStructure.Shutdown ⟨ts, false⟩)).1.map Prod.fst =
      ts.map PoolTypeStructure.Task.id := by
  refine ⟨?_, ?_, ?_⟩
  · simpa using PoolTypeStructure.submitAll_open [] ts
  · intro t rest sd
    cases sd <;> simp [PoolTypeStructure.FetchTask, PoolTypeStructure.fetchWaitPredicate]
  · simp [PoolTypeStructure.Shutdown, PoolTypeStructure.worker_drain]
